import Mathlib

/-!
# Verification of the ngrammatic core

Shallow embedding of the ngrammatic crate's core data structures and
algorithms, with proofs about them:

* the weight bitstream codec of `src/weights.rs` (`WeightsBuilder::push`,
  `Lender::next`, `Succ::next`, `WeightsIter::next`);
* the corpus rasterizer of `src/corpus.rs` (`From::from`) and its parallel
  twin of `src/corpus_par_from.rs` (`Corpus::par_from`);
* the bipartite graph of `src/bit_field_bipartite_graph.rs`
  (`WeightedBitFieldBipartiteGraph::new`, `src_id_from_edge_id`, the
  adjacency accessors);
* the search-result heap of `src/search_result.rs` (`Ord for SearchResult`,
  `SearchResultsHeap::push`, `into_sorted_vec`).

Bitstreams are modelled as `List Bool` in write order; machine integers as
`Nat` (no value in the modelled paths approaches the word size); Rust
panics as `Option`/dedicated outcome constructors.
-/

namespace Ngrammatic

/-! ## Bit-level codes (dsi-bitstream contract used by `src/weights.rs`)

`write_unary n` emits `n` zero bits and a one; `write_gamma n` emits, for
`v = n + 1` with `l = ⌊log₂ v⌋`, the unary code of `l` followed by the `l`
low bits of `v`.  The readers consume bits in exactly the order written;
a failed read (reading past a malformed stream) is `none`, modelling the
`unwrap` panic in the source. -/

/-- Unary code: `n` zeros followed by a one. -/
def writeUnary (n : Nat) : List Bool :=
  List.replicate n false ++ [true]

/-- Reads a unary code: counts zeros up to the terminating one. -/
def readUnary : List Bool → Option (Nat × List Bool)
  | [] => none
  | true :: bs => some (0, bs)
  | false :: bs => (readUnary bs).map (fun p => (p.1 + 1, p.2))

/-- Writes the `l` low bits of `v`, least-significant first. -/
def writeBits : Nat → Nat → List Bool
  | 0, _ => []
  | l + 1, v => (v % 2 == 1) :: writeBits l (v / 2)

/-- Reads `l` bits written by `writeBits`, rebuilding the value. -/
def readBits : Nat → List Bool → Option (Nat × List Bool)
  | 0, bs => some (0, bs)
  | _ + 1, [] => none
  | l + 1, b :: bs =>
    (readBits l bs).map (fun p => (2 * p.1 + (if b then 1 else 0), p.2))

/-- Elias gamma code of `n` (the codec stores `n` as `γ(n+1)`):
unary code of `l = ⌊log₂ (n+1)⌋` followed by the `l` low bits of `n+1`. -/
def writeGamma (n : Nat) : List Bool :=
  writeUnary (Nat.log2 (n + 1)) ++
    writeBits (Nat.log2 (n + 1)) ((n + 1) % 2 ^ Nat.log2 (n + 1))

/-- Reads an Elias gamma code. -/
def readGamma (bs : List Bool) : Option (Nat × List Bool) := do
  let (l, bs₁) ← readUnary bs
  let (low, bs₂) ← readBits l bs₁
  some (2 ^ l + low - 1, bs₂)

theorem readUnary_writeUnary (n : Nat) (rest : List Bool) :
    readUnary (writeUnary n ++ rest) = some (n, rest) := by
  induction n with
  | zero => simp [writeUnary, readUnary]
  | succ k ih =>
    have hsplit : writeUnary (k + 1) ++ rest = false :: (writeUnary k ++ rest) := by
      simp [writeUnary, List.replicate_succ]
    rw [hsplit]
    simp only [readUnary, ih]
    rfl

theorem readBits_writeBits (l v : Nat) (hv : v < 2 ^ l) (rest : List Bool) :
    readBits l (writeBits l v ++ rest) = some (v, rest) := by
  induction l generalizing v with
  | zero =>
    interval_cases v
    simp [writeBits, readBits]
  | succ k ih =>
    have hv2 : v / 2 < 2 ^ k := by
      rw [Nat.div_lt_iff_lt_mul (by norm_num)]
      calc v < 2 ^ (k + 1) := hv
        _ = 2 ^ k * 2 := by ring
    simp only [writeBits, List.cons_append, readBits, List.append_eq, ih (v / 2) hv2,
      Option.map_some', Option.some.injEq, Prod.mk.injEq, and_true]
    have hdm := Nat.div_add_mod v 2
    rcases Nat.mod_two_eq_zero_or_one v with h | h
    · have hb : (v % 2 == 1) = false := by rw [h]; rfl
      simp only [hb, Bool.false_eq_true, if_false]
      omega
    · have hb : (v % 2 == 1) = true := by rw [h]; rfl
      simp only [hb, if_true]
      omega

theorem readGamma_writeGamma (n : Nat) (rest : List Bool) :
    readGamma (writeGamma n ++ rest) = some (n, rest) := by
  have h1 : 2 ^ Nat.log2 (n + 1) ≤ n + 1 :=
    Nat.log2_self_le (Nat.succ_ne_zero n)
  have h2 : n + 1 < 2 ^ (Nat.log2 (n + 1) + 1) := Nat.lt_log2_self
  have hlt : (n + 1) % 2 ^ Nat.log2 (n + 1) < 2 ^ Nat.log2 (n + 1) :=
    Nat.mod_lt _ (Nat.pos_pow_of_pos _ (by norm_num))
  have hmod : (n + 1) % 2 ^ Nat.log2 (n + 1) = n + 1 - 2 ^ Nat.log2 (n + 1) := by
    rw [Nat.mod_eq_sub_mod h1, Nat.mod_eq_of_lt]
    have := Nat.pow_succ 2 (Nat.log2 (n + 1))
    omega
  simp only [writeGamma, readGamma, List.append_assoc, readUnary_writeUnary,
    Option.bind_eq_bind, Option.some_bind, readBits_writeBits _ _ hlt]
  simp only [Option.some_bind, Option.some.injEq, Prod.mk.injEq, and_true]
  omega

/-! ## The weight codec of `src/weights.rs`

`WeightsBuilder::push` writes `γ(len)` and then each weight: a non-zero
weight as its unary code; a (maximal) run of `m` zeros as `unary(0)`
followed by `γ(m − 1)`, flushed at the next non-zero weight or at the end
of the list.  `pushBody ws z` is the loop body with `z` the pending
`zeros_range` accumulator of the source. -/

/-- The weight-encoding loop of `WeightsBuilder::push` (`src/weights.rs`),
second argument = the `zeros_range` accumulator. -/
def pushBody : List Nat → Nat → List Bool
  | [], 0 => []
  | [], z + 1 => writeGamma z
  | 0 :: ws, 0 => writeUnary 0 ++ pushBody ws 1
  | 0 :: ws, z + 1 => pushBody ws (z + 2)
  | (w + 1) :: ws, 0 => writeUnary (w + 1) ++ pushBody ws 0
  | (w + 1) :: ws, z + 1 => writeGamma z ++ writeUnary (w + 1) ++ pushBody ws 0

/-- All bits written by one `WeightsBuilder::push` call: the γ-coded
length prefix followed by the encoded weights. -/
def pushBits (ws : List Nat) : List Bool :=
  writeGamma ws.length ++ pushBody ws 0

/-- The `WeightsBuilder` state (`src/weights.rs`): the bitstream written so
far, the per-node starting bit offsets, the bit length, and the node and
weight tallies. -/
structure WeightsBuilder where
  bits : List Bool
  offsets : List Nat
  len : Nat
  numNodes : Nat
  numWeights : Nat
  deriving Repr, DecidableEq

/-- `WeightsBuilder::new`. -/
def WeightsBuilder.new : WeightsBuilder := ⟨[], [], 0, 0, 0⟩

/-- `WeightsBuilder::push`: records the current bit length as the node's
offset, then appends the encoded weights. -/
def WeightsBuilder.push (b : WeightsBuilder) (ws : List Nat) : WeightsBuilder :=
  { bits := b.bits ++ pushBits ws
    offsets := b.offsets ++ [b.len]
    len := b.len + (pushBits ws).length
    numNodes := b.numNodes + 1
    numWeights := b.numWeights + ws.length }

/-- The immutable `Weights` store (`src/weights.rs`): reader data, node
offsets (the Elias–Fano sequence, modelled by the exact offset list), and
the node/weight counts. -/
structure Weights where
  bits : List Bool
  offsets : List Nat
  numNodes : Nat
  numWeights : Nat
  deriving Repr, DecidableEq

/-- `WeightsBuilder::build`. -/
def WeightsBuilder.build (b : WeightsBuilder) : Weights :=
  ⟨b.bits, b.offsets, b.numNodes, b.numWeights⟩

/-- Pushes every list of `L` in order, as the corpus builders do. -/
def pushAll (L : List (List Nat)) : WeightsBuilder :=
  L.foldl WeightsBuilder.push WeightsBuilder.new

/-! ### The decoders -/

/-- The weight-decoding loop of `Lender::next` (`src/weights.rs`): decodes
`k` weights.  A unary weight `0` is followed by a γ-coded count `z` of
further zeros, which are appended in one step (`successors.resize`);
`weights_to_decode` would underflow if `z` exceeded the remaining count,
which (like a failed read) is `none`. -/
def decodeWeights : Nat → List Bool → Option (List Nat × List Bool)
  | 0, bs => some ([], bs)
  | k + 1, bs => do
    let (w, bs₁) ← readUnary bs
    if w = 0 then do
      let (z, bs₂) ← readGamma bs₁
      if z ≤ k then
        let (ws, bs₃) ← decodeWeights (k - z) bs₂
        some (0 :: (List.replicate z 0 ++ ws), bs₃)
      else none
    else do
      let (ws, bs₂) ← decodeWeights k bs₁
      some (w :: ws, bs₂)
  termination_by k _ => k
  decreasing_by all_goals omega

/-- One full `Lender::next` call: reads the γ length prefix, then the
weights. -/
def lenderNext (bs : List Bool) : Option (List Nat × List Bool) := do
  let (k, bs₁) ← readGamma bs
  decodeWeights k bs₁

/-- Draining the lender over `n` nodes (`Lender::next` until `start_node`
reaches `num_nodes`). -/
def lenderDecode : Nat → List Bool → Option (List (List Nat) × List Bool)
  | 0, bs => some ([], bs)
  | n + 1, bs => do
    let (ws, bs₁) ← lenderNext bs
    let (rest, bs₂) ← lenderDecode n bs₁
    some (ws :: rest, bs₂)

/-- The state of the random-access iterator `Succ` (`src/weights.rs`):
the remaining bitstream, `weights_to_decode` and `zeros_range`. -/
structure SuccState where
  bits : List Bool
  toDecode : Nat
  zerosRange : Nat
  deriving Repr, DecidableEq

/-- `Succ::new` / `Succ::reset`: reads the γ length prefix of the node at
the reader's position. -/
def succNew (bs : List Bool) : Option SuccState :=
  (readGamma bs).map (fun p => ⟨p.2, p.1, 0⟩)

/-- `Succ::next`.  Returns `none` when the iterator is exhausted
(`weights_to_decode == 0`); a failed read (an `unwrap` panic in the
source, impossible on the well-formed streams of every theorem below) is
also `none`. -/
def succNext (s : SuccState) : Option (Nat × SuccState) :=
  if s.toDecode = 0 then none
  else if 0 < s.zerosRange then
    some (0, ⟨s.bits, s.toDecode - 1, s.zerosRange - 1⟩)
  else do
    let (w, bs₁) ← readUnary s.bits
    if w = 0 then do
      let (z, bs₂) ← readGamma bs₁
      some (0, ⟨bs₂, s.toDecode - 1, z⟩)
    else
      some (w, ⟨bs₁, s.toDecode - 1, 0⟩)

/-- Collects up to `n` items from a `Succ` iterator, with the final
state. -/
def succTake : Nat → SuccState → List Nat × SuccState
  | 0, s => ([], s)
  | n + 1, s =>
    match succNext s with
    | none => ([], s)
    | some (w, s') =>
      let p := succTake n s'
      (w :: p.1, p.2)

/-- `RandomAccessLabeling::labels(node_id)` (`src/weights.rs`): seeks the
reader to the node's offset, builds a `Succ` there, and drains it. -/
def labelsAt (W : Weights) (i : Nat) : Option (List Nat) :=
  (succNew (W.bits.drop (W.offsets.getD i 0))).map (fun s => (succTake s.toDecode s).1)

/-- The loop of `WeightsIter::next` (`src/weights.rs`) iterated to collect
`n` weights: an exhausted `Succ` is `reset` and retried.  The first
argument is explicit fuel bounding the total number of loop steps (the
source loop terminates because the stream is finite). -/
def wiRun : Nat → Nat → SuccState → List Nat
  | 0, _, _ => []
  | _ + 1, 0, _ => []
  | fuel + 1, n + 1, s =>
    match succNext s with
    | some (w, s') => w :: wiRun fuel n s'
    | none =>
      match readGamma s.bits with
      | some (k, bs) => wiRun fuel (n + 1) ⟨bs, k, 0⟩
      | none => []

/-- `Weights::weights()` (`src/weights.rs`): a `WeightsIter` over the full
stream from offset `0` (whose construction, via `Succ::new`, already reads
the first node's γ prefix), collecting `num_weights` items; `fuel` bounds
the loop steps. -/
def weightsIterAll (W : Weights) (fuel : Nat) : Option (List Nat) :=
  (succNew W.bits).map (fun s => wiRun fuel W.numWeights s)

/-! ### Round-trip of the codec -/

theorem pushBody_zeros (m : Nat) (ws : List Nat) : ∀ (z : Nat),
    pushBody (List.replicate m 0 ++ ws) (z + 1) = pushBody ws (z + 1 + m) := by
  induction m with
  | zero => intro z; simp
  | succ j ih =>
    intro z
    have h1 : List.replicate (j + 1) (0 : Nat) ++ ws = 0 :: (List.replicate j 0 ++ ws) := by
      simp [List.replicate_succ]
    rw [h1, show pushBody (0 :: (List.replicate j 0 ++ ws)) (z + 1) =
      pushBody (List.replicate j 0 ++ ws) (z + 1 + 1) from rfl, ih (z + 1)]
    congr 1
    omega

theorem exists_zeros_split (t : List Nat) :
    ∃ j u, t = List.replicate j 0 ++ u ∧
      (u = [] ∨ ∃ w v, u = (w + 1) :: v) := by
  induction t with
  | nil => exact ⟨0, [], rfl, Or.inl rfl⟩
  | cons x xs ih =>
    cases x with
    | zero =>
      obtain ⟨j, u, hx, hh⟩ := ih
      exact ⟨j + 1, u, by simp [List.replicate_succ, hx], hh⟩
    | succ w => exact ⟨0, (w + 1) :: xs, rfl, Or.inr ⟨w, xs, rfl⟩⟩

theorem decodeWeights_nonzero (w : Nat) (k : Nat) (bs : List Bool) :
    decodeWeights (k + 1) (writeUnary (w + 1) ++ bs) =
      (decodeWeights k bs).bind (fun p => some ((w + 1) :: p.1, p.2)) := by
  simp only [decodeWeights, readUnary_writeUnary, Option.bind_eq_bind, Option.some_bind]
  rw [if_neg (Nat.succ_ne_zero w)]

theorem decodeWeights_zeros (z k : Nat) (h : z ≤ k) (bs : List Bool) :
    decodeWeights (k + 1) (writeUnary 0 ++ (writeGamma z ++ bs)) =
      (decodeWeights (k - z) bs).bind
        (fun p => some (0 :: (List.replicate z 0 ++ p.1), p.2)) := by
  simp only [decodeWeights, List.append_assoc, readUnary_writeUnary,
    readGamma_writeGamma, Option.bind_eq_bind, Option.some_bind, if_pos rfl, if_pos h,
    eq_self_iff_true, if_true]

theorem decodeWeights_pushBody (n : Nat) :
    ∀ (ws : List Nat) (rest : List Bool), ws.length ≤ n →
      decodeWeights ws.length (pushBody ws 0 ++ rest) = some (ws, rest) := by
  induction n with
  | zero =>
    intro ws rest h
    have hws : ws = [] := List.length_eq_zero.mp (Nat.le_zero.mp h)
    subst hws
    simp [decodeWeights, pushBody]
  | succ n ih =>
    intro ws rest h
    match ws with
    | [] => simp [decodeWeights, pushBody]
    | (w + 1) :: t =>
      have ht : t.length ≤ n := by
        simp only [List.length_cons] at h
        omega
      have hpb : pushBody ((w + 1) :: t) 0 ++ rest =
          writeUnary (w + 1) ++ (pushBody t 0 ++ rest) := by
        simp [pushBody]
      rw [List.length_cons, hpb, decodeWeights_nonzero, ih t rest ht]
      rfl
    | 0 :: t =>
      obtain ⟨j, u, htt, hsplit⟩ := exists_zeros_split t
      have hj : t.length = j + u.length := by rw [htt]; simp
      have hpb : pushBody (0 :: t) 0 = writeUnary 0 ++ pushBody u (j + 1) := by
        rw [show pushBody (0 :: t) 0 = writeUnary 0 ++ pushBody t 1 from rfl, htt,
          show (1 : Nat) = 0 + 1 from rfl, pushBody_zeros]
        rw [Nat.zero_add, Nat.add_comm 1 j]
      rcases hsplit with h' | ⟨w, v, h'⟩
      · subst h'
        have hpb2 : pushBody ([] : List Nat) (j + 1) = writeGamma j := rfl
        rw [List.length_cons, hj, hpb, hpb2, List.append_assoc,
          decodeWeights_zeros j (j + List.length ([] : List Nat)) (by simp) rest]
        simp only [List.length_nil, Nat.add_zero, Nat.sub_self, decodeWeights,
          Option.bind_eq_bind, Option.some_bind]
        rw [htt]
      · subst h'
        simp only [List.length_cons] at hj h
        have hv : v.length ≤ n := by omega
        have hpb2 : pushBody ((w + 1) :: v) (j + 1) =
            writeGamma j ++ (writeUnary (w + 1) ++ pushBody v 0) := by
          simp [pushBody, List.append_assoc]
        rw [List.length_cons, hj, hpb, hpb2]
        simp only [List.append_assoc]
        rw [decodeWeights_zeros j (j + (v.length + 1)) (by omega)]
        have harith : j + (v.length + 1) - j = v.length + 1 := by omega
        rw [harith, decodeWeights_nonzero, ih v rest hv]
        rw [htt]
        simp

/-- The decoding loop of `Lender::next` inverts the encoding loop of
`WeightsBuilder::push`. -/
theorem decodeWeights_push (ws : List Nat) (rest : List Bool) :
    decodeWeights ws.length (pushBody ws 0 ++ rest) = some (ws, rest) :=
  decodeWeights_pushBody ws.length ws rest le_rfl

/-- One `Lender::next` call inverts one `WeightsBuilder::push` call. -/
theorem lenderNext_push (ws : List Nat) (rest : List Bool) :
    lenderNext (pushBits ws ++ rest) = some (ws, rest) := by
  simp only [lenderNext, pushBits, List.append_assoc, readGamma_writeGamma,
    Option.bind_eq_bind, Option.some_bind]
  exact decodeWeights_push ws rest

/-! ### The `Succ` iterator inverts one pushed node -/

theorem succNext_nonzero (w d : Nat) (bs : List Bool) :
    succNext ⟨writeUnary (w + 1) ++ bs, d + 1, 0⟩ = some (w + 1, ⟨bs, d, 0⟩) := by
  simp [succNext, readUnary_writeUnary]

theorem succNext_zero (z d : Nat) (bs : List Bool) :
    succNext ⟨writeUnary 0 ++ (writeGamma z ++ bs), d + 1, 0⟩ = some (0, ⟨bs, d, z⟩) := by
  simp [succNext, readUnary_writeUnary, readGamma_writeGamma]

theorem succNext_inrun (z d : Nat) (bs : List Bool) :
    succNext ⟨bs, d + 1, z + 1⟩ = some (0, ⟨bs, d, z⟩) := by
  simp [succNext]

theorem succTake_zeros (z : Nat) : ∀ (n : Nat) (bs : List Bool),
    succTake (z + n) ⟨bs, z + n, z⟩ =
      (List.replicate z 0 ++ (succTake n ⟨bs, n, 0⟩).1, (succTake n ⟨bs, n, 0⟩).2) := by
  induction z with
  | zero => intro n bs; simp
  | succ y ih =>
    intro n bs
    have he : y + 1 + n = (y + n) + 1 := by omega
    rw [he]
    simp only [succTake, succNext_inrun, ih n bs, List.replicate_succ, List.cons_append]

theorem succTake_cons (m : Nat) (s s₁ : SuccState) (a : Nat)
    (hs : succNext s = some (a, s₁)) :
    succTake (m + 1) s = (a :: (succTake m s₁).1, (succTake m s₁).2) := by
  simp only [succTake, hs]

theorem succTake_pushBody (n : Nat) :
    ∀ (ws : List Nat) (rest : List Bool), ws.length ≤ n →
      succTake ws.length ⟨pushBody ws 0 ++ rest, ws.length, 0⟩ = (ws, ⟨rest, 0, 0⟩) := by
  induction n with
  | zero =>
    intro ws rest h
    have hws : ws = [] := List.length_eq_zero.mp (Nat.le_zero.mp h)
    subst hws
    simp [succTake, pushBody]
  | succ n ih =>
    intro ws rest h
    match ws with
    | [] => simp [succTake, pushBody]
    | (w + 1) :: t =>
      have ht : t.length ≤ n := by
        simp only [List.length_cons] at h
        omega
      have hpb : pushBody ((w + 1) :: t) 0 ++ rest =
          writeUnary (w + 1) ++ (pushBody t 0 ++ rest) := by
        simp [pushBody]
      rw [List.length_cons, hpb, succTake_cons t.length _ _ _ (succNext_nonzero w t.length _),
        ih t rest ht]
    | 0 :: t =>
      obtain ⟨j, u, htt, hsplit⟩ := exists_zeros_split t
      have hj : t.length = j + u.length := by rw [htt]; simp
      have hpb : pushBody (0 :: t) 0 = writeUnary 0 ++ pushBody u (j + 1) := by
        rw [show pushBody (0 :: t) 0 = writeUnary 0 ++ pushBody t 1 from rfl, htt,
          show (1 : Nat) = 0 + 1 from rfl, pushBody_zeros]
        rw [Nat.zero_add, Nat.add_comm 1 j]
      rcases hsplit with h' | ⟨w, v, h'⟩
      · subst h'
        have hpb2 : pushBody ([] : List Nat) (j + 1) = writeGamma j := rfl
        rw [List.length_cons, hj, hpb, hpb2, List.append_assoc]
        simp only [List.length_nil, Nat.add_zero]
        rw [succTake_cons j _ _ _ (succNext_zero j j rest)]
        have hz := succTake_zeros j 0 rest
        simp only [Nat.add_zero, succTake] at hz
        rw [hz, htt]
      · subst h'
        simp only [List.length_cons] at hj h
        have hv : v.length ≤ n := by omega
        have hpb2 : pushBody ((w + 1) :: v) (j + 1) =
            writeGamma j ++ (writeUnary (w + 1) ++ pushBody v 0) := by
          simp [pushBody, List.append_assoc]
        rw [List.length_cons, hj, hpb, hpb2]
        simp only [List.append_assoc]
        rw [succTake_cons (j + (v.length + 1)) _ _ _
          (succNext_zero j (j + (v.length + 1)) (writeUnary (w + 1) ++ (pushBody v 0 ++ rest)))]
        rw [succTake_zeros j (v.length + 1) (writeUnary (w + 1) ++ (pushBody v 0 ++ rest))]
        rw [succTake_cons v.length _ _ _ (succNext_nonzero w v.length (pushBody v 0 ++ rest)),
          ih v rest hv]
        rw [htt]

/-! ### The full stream pushed by a sequence of `push` calls -/

/-- The whole bitstream written by pushing every list of `L` in order. -/
def streamBits (L : List (List Nat)) : List Bool :=
  (L.map pushBits).flatten

/-- Total number of pushed weights. -/
def totalWeights (L : List (List Nat)) : Nat :=
  (L.map List.length).sum

/-- The bit offset at which node `i`'s encoding starts. -/
def offsetBits (L : List (List Nat)) (i : Nat) : Nat :=
  ((L.take i).map (fun ws => (pushBits ws).length)).sum

theorem streamBits_cons (ws : List Nat) (L : List (List Nat)) :
    streamBits (ws :: L) = pushBits ws ++ streamBits L := by
  simp [streamBits]

theorem totalWeights_cons (ws : List Nat) (L : List (List Nat)) :
    totalWeights (ws :: L) = ws.length + totalWeights L := by
  simp [totalWeights]

theorem offsetBits_zero (L : List (List Nat)) : offsetBits L 0 = 0 := by
  simp [offsetBits]

theorem offsetBits_cons_succ (ws : List Nat) (L : List (List Nat)) (i : Nat) :
    offsetBits (ws :: L) (i + 1) = (pushBits ws).length + offsetBits L i := by
  simp [offsetBits]

theorem foldl_push_spec (L : List (List Nat)) : ∀ (b : WeightsBuilder),
    L.foldl WeightsBuilder.push b =
      ⟨b.bits ++ streamBits L,
       b.offsets ++ (List.range L.length).map (fun i => b.len + offsetBits L i),
       b.len + (streamBits L).length,
       b.numNodes + L.length,
       b.numWeights + totalWeights L⟩ := by
  induction L with
  | nil =>
    intro b
    cases b
    simp [streamBits, totalWeights]
  | cons ws L' ih =>
    intro b
    rw [List.foldl_cons, ih]
    simp only [WeightsBuilder.push, streamBits_cons, totalWeights_cons, List.length_cons,
      List.range_succ_eq_map, List.map_cons, List.map_map, List.length_append,
      WeightsBuilder.mk.injEq]
    refine ⟨List.append_assoc _ _ _, ?_, by omega, by omega, by omega⟩
    rw [List.append_assoc]
    congr 1
    rw [show (fun i => b.len + offsetBits (ws :: L') i) ∘ Nat.succ =
      (fun i => b.len + (pushBits ws).length + offsetBits L' i) from ?_]
    · simp [offsetBits_zero, List.singleton_append]
    · funext i
      simp only [Function.comp_apply, Nat.succ_eq_add_one, offsetBits_cons_succ]
      omega

theorem pushAll_build (L : List (List Nat)) :
    (pushAll L).build =
      ⟨streamBits L, (List.range L.length).map (offsetBits L), L.length, totalWeights L⟩ := by
  rw [pushAll, foldl_push_spec]
  simp [WeightsBuilder.build, WeightsBuilder.new]

theorem lenderDecode_stream (L : List (List Nat)) : ∀ (rest : List Bool),
    lenderDecode L.length (streamBits L ++ rest) = some (L, rest) := by
  induction L with
  | nil => intro rest; simp [lenderDecode, streamBits]
  | cons ws L' ih =>
    intro rest
    rw [List.length_cons, streamBits_cons, List.append_assoc]
    simp only [lenderDecode, lenderNext_push, Option.bind_eq_bind, Option.some_bind, ih rest]

theorem drop_offsetBits (L : List (List Nat)) : ∀ (i : Nat),
    (streamBits L).drop (offsetBits L i) = streamBits (L.drop i) := by
  induction L with
  | nil => intro i; simp [streamBits, offsetBits]
  | cons ws L' ih =>
    intro i
    cases i with
    | zero => simp [offsetBits_zero]
    | succ j =>
      rw [offsetBits_cons_succ, streamBits_cons, ← List.drop_drop, List.drop_left, ih j]
      rfl

theorem succNew_push (ws : List Nat) (rest : List Bool) :
    succNew (pushBits ws ++ rest) = some ⟨pushBody ws 0 ++ rest, ws.length, 0⟩ := by
  simp [succNew, pushBits, List.append_assoc, readGamma_writeGamma]

theorem labelsAt_pushAll (L : List (List Nat)) (i : Nat) (h : i < L.length) :
    labelsAt (pushAll L).build i = some (L.getD i []) := by
  rw [pushAll_build]
  show (succNew ((streamBits L).drop
    ((((List.range L.length).map (offsetBits L))).getD i 0))).map
    (fun s => (succTake s.toDecode s).1) = some (L.getD i [])
  have hoff : (((List.range L.length).map (offsetBits L))).getD i 0 = offsetBits L i := by
    rw [List.getD_eq_getElem _ _ (by simpa using h), List.getElem_map, List.getElem_range]
  rw [hoff, drop_offsetBits, List.drop_eq_getElem_cons h, streamBits_cons, succNew_push]
  have hrt := succTake_pushBody (L[i].length) L[i] (streamBits (L.drop (i + 1))) le_rfl
  simp only [Option.map_some', hrt, List.getD_eq_getElem _ _ h]


theorem flatten_length_eq (L : List (List Nat)) :
    L.flatten.length = totalWeights L :=
  List.length_flatten L

theorem wiRun_emit (n : Nat) : ∀ (s s₂ : SuccState) (ws : List Nat) (m fuel : Nat),
    succTake n s = (ws, s₂) → ws.length = n → n ≤ fuel →
    wiRun fuel (n + m) s = ws ++ wiRun (fuel - n) m s₂ := by
  induction n with
  | zero =>
    intro s s₂ ws m fuel hst hlen _
    rw [show succTake 0 s = ([], s) from rfl] at hst
    simp only [Prod.mk.injEq] at hst
    obtain ⟨h1, h2⟩ := hst
    subst h1
    subst h2
    simp
  | succ k ih =>
    intro s s₂ ws m fuel hst hlen hf
    match hnx : succNext s with
    | none =>
      rw [show succTake (k + 1) s = ([], s) from by simp [succTake, hnx]] at hst
      simp only [Prod.mk.injEq] at hst
      obtain ⟨h1, _⟩ := hst
      rw [← h1] at hlen
      simp at hlen
    | some (w, s₁) =>
      rw [show succTake (k + 1) s =
        (w :: (succTake k s₁).1, (succTake k s₁).2) from by simp [succTake, hnx]] at hst
      simp only [Prod.mk.injEq] at hst
      obtain ⟨h1, h2⟩ := hst
      obtain ⟨f, rfl⟩ : ∃ f, fuel = f + 1 := ⟨fuel - 1, by omega⟩
      have hlen2 : (succTake k s₁).1.length = k := by
        rw [← h1] at hlen
        simp at hlen
        omega
      rw [Nat.add_right_comm k 1 m]
      rw [show wiRun (f + 1) (k + m + 1) s = w :: wiRun f (k + m) s₁ from by
        simp [wiRun, hnx]]
      rw [ih s₁ (succTake k s₁).2 (succTake k s₁).1 m f Prod.mk.eta.symm hlen2 (by omega)]
      rw [h2, ← h1]
      rw [show f + 1 - (k + 1) = f - k from by omega]
      simp

theorem wiRun_stream (L : List (List Nat)) : ∀ (rest : List Bool) (fuel : Nat),
    totalWeights L + L.length ≤ fuel →
    wiRun fuel (totalWeights L) ⟨streamBits L ++ rest, 0, 0⟩ = L.flatten := by
  induction L with
  | nil =>
    intro rest fuel _
    rw [show totalWeights [] = 0 from rfl]
    cases fuel <;> simp [wiRun]
  | cons ws L' ih =>
    intro rest fuel h
    rw [totalWeights_cons] at h ⊢
    obtain ⟨f, rfl⟩ : ∃ f, fuel = f + 1 := ⟨fuel - 1, by
      simp only [List.length_cons] at h
      omega⟩
    cases hn : ws.length + totalWeights L' with
    | zero =>
      have hws : ws = [] := List.length_eq_zero.mp (by omega)
      have hfl : L'.flatten = [] := List.length_eq_zero.mp (by
        rw [flatten_length_eq]
        omega)
      simp [wiRun, hws, hfl]
    | succ k =>
      have hnext : succNext ⟨streamBits (ws :: L') ++ rest, 0, 0⟩ = none := by
        simp [succNext]
      have hread : readGamma (streamBits (ws :: L') ++ rest) =
          some (ws.length, pushBody ws 0 ++ (streamBits L' ++ rest)) := by
        rw [streamBits_cons, List.append_assoc]
        simp [pushBits, List.append_assoc, readGamma_writeGamma]
      rw [show wiRun (f + 1) (k + 1) ⟨streamBits (ws :: L') ++ rest, 0, 0⟩ =
        wiRun f (k + 1) ⟨pushBody ws 0 ++ (streamBits L' ++ rest), ws.length, 0⟩ from by
          simp [wiRun, hnext, hread]]
      rw [← hn]
      have hst := succTake_pushBody ws.length ws (streamBits L' ++ rest) le_rfl
      rw [wiRun_emit ws.length _ _ ws (totalWeights L') f hst rfl (by
        simp only [List.length_cons] at h
        omega)]
      rw [ih rest (f - ws.length) (by
        simp only [List.length_cons] at h
        omega)]
      simp

/-- Claim C1: pushing a sequence of weight lists through
`WeightsBuilder::push` and decoding the resulting bitstream sequentially
via the lender, per key via `labels(kid)`, or globally via `weights()`
yields exactly the original lists in their original order, including runs
of zeros.  (The `weights()` iterator eagerly reads a first γ prefix at
construction, so that mode presupposes at least one pushed node.) -/
theorem weights_bitstream_roundtrip (L : List (List Nat)) :
    lenderDecode ((pushAll L).build.numNodes) ((pushAll L).build.bits) = some (L, []) ∧
    (∀ i, i < L.length → labelsAt (pushAll L).build i = some (L.getD i [])) ∧
    (L ≠ [] → weightsIterAll (pushAll L).build
      ((pushAll L).build.numWeights + (pushAll L).build.numNodes) = some L.flatten) := by
  refine ⟨?_, ?_, ?_⟩
  · rw [pushAll_build]
    have := lenderDecode_stream L []
    simpa using this
  · intro i hi
    exact labelsAt_pushAll L i hi
  · intro hL
    obtain ⟨ws, L', rfl⟩ := List.exists_cons_of_ne_nil hL
    rw [pushAll_build]
    show (succNew (streamBits (ws :: L'))).map
      (fun s => wiRun (totalWeights (ws :: L') + (ws :: L').length)
        (totalWeights (ws :: L')) s) = some (ws :: L').flatten
    have hsn : succNew (streamBits (ws :: L')) =
        some ⟨pushBody ws 0 ++ streamBits L', ws.length, 0⟩ := by
      rw [streamBits_cons]
      exact succNew_push ws (streamBits L')
    rw [hsn, Option.map_some']
    have hst := succTake_pushBody ws.length ws (streamBits L') le_rfl
    rw [totalWeights_cons, List.length_cons]
    rw [wiRun_emit ws.length _ _ ws (totalWeights L')
      (ws.length + totalWeights L' + (L'.length + 1)) hst rfl (by omega)]
    have harith : ws.length + totalWeights L' + (L'.length + 1) - ws.length =
        totalWeights L' + L'.length + 1 := by omega
    rw [harith]
    rw [show (⟨streamBits L', 0, 0⟩ : SuccState) =
      ⟨streamBits L' ++ [], 0, 0⟩ from by simp]
    rw [wiRun_stream L' [] (totalWeights L' + L'.length + 1) (by omega)]
    simp

/-- Witness for C1 at the weight matrix of the crate's `test_weights`:
all three hypotheses are discharged at a concrete input. -/
theorem weights_bitstream_roundtrip_witness :
    (∀ i, i < ([[1,2,3,4,5],[0,0,0,0,0],[1,1,1,1,1],[1,0,3,2,2],[0],[]] :
        List (List Nat)).length →
      labelsAt (pushAll [[1,2,3,4,5],[0,0,0,0,0],[1,1,1,1,1],[1,0,3,2,2],[0],[]]).build i =
        some (([[1,2,3,4,5],[0,0,0,0,0],[1,1,1,1,1],[1,0,3,2,2],[0],[]] :
          List (List Nat)).getD i [])) ∧
    weightsIterAll
      (pushAll [[1,2,3,4,5],[0,0,0,0,0],[1,1,1,1,1],[1,0,3,2,2],[0],[]]).build
      ((pushAll [[1,2,3,4,5],[0,0,0,0,0],[1,1,1,1,1],[1,0,3,2,2],[0],[]]).build.numWeights +
        (pushAll [[1,2,3,4,5],[0,0,0,0,0],[1,1,1,1,1],[1,0,3,2,2],[0],[]]).build.numNodes) =
      some ([[1,2,3,4,5],[0,0,0,0,0],[1,1,1,1,1],[1,0,3,2,2],[0],[]] :
        List (List Nat)).flatten :=
  ⟨(weights_bitstream_roundtrip _).2.1,
    (weights_bitstream_roundtrip _).2.2 (by decide)⟩

/-! ## The corpus rasterizer of `src/corpus.rs` and `src/corpus_par_from.rs`

A key is modelled by the finite list of ngrams its gram iterator produces
(`key.grams().ngrams()`, `src/traits/key.rs`); ngrams are `Nat` (the
`Ngram` contract is a totally ordered, hashable value).  `Key::counts` is
a hash map from ngram to occurrence count, which `From::from` turns into a
vector of pairs sorted by ngram, so per key the builder sees the distinct
ngrams in strictly increasing order, each with its count. -/

/-- Insertion into a strictly increasing duplicate-free list. -/
def insertSorted (g : Nat) : List Nat → List Nat
  | [] => [g]
  | x :: xs =>
    if g < x then g :: x :: xs
    else if g = x then x :: xs
    else x :: insertSorted g xs

/-- The strictly increasing list of the distinct values of `l`: the
iteration order of the `BTreeSet` of `From::from`, and the sorted
`(ngram, count)` key order of `Key::counts` after `sort_unstable_by`. -/
def sortedDistinct (l : List Nat) : List Nat := l.foldr insertSorted []

/-- The per-key cooccurrence list: the counts of the key's distinct
ngrams, in ngram order (`Key::counts` digested in sorted order). -/
def keyCounts (k : List Nat) : List Nat :=
  (sortedDistinct k).map (fun g => k.count g)

/-- The sorted gram table: the `BTreeSet` of every ngram of every key. -/
def ngramTable (L : List (List Nat)) : List Nat := sortedDistinct L.flatten

/-- `index_of_unchecked` on the sorted table: the rank of `g`. -/
def idxIn : List Nat → Nat → Nat
  | [], _ => 0
  | x :: xs, g => if g = x then 0 else idxIn xs g + 1

/-- `key_to_ngrams`: the ngrams of each key in key order (values, prior to
the remap). -/
def keyToNgrams (L : List (List Nat)) : List Nat :=
  (L.map sortedDistinct).flatten

/-- `key_offsets`: `key_offsets[i]` = number of edges of the first `i`
keys (the builder pushes `0`, then `cooccurrences.len()` after each
key). -/
def keyOffsets (L : List (List Nat)) : List Nat :=
  (List.range (L.length + 1)).map
    (fun i => ((L.take i).map (fun k => (sortedDistinct k).length)).sum)

/-- `key_to_ngram_edges`: every ngram value remapped to its rank in the
gram table. -/
def keyToNgramEdges (L : List (List Nat)) : List Nat :=
  (keyToNgrams L).map (idxIn (ngramTable L))

/-- The inbound degree of gram id `g` (`ngram_degrees[g+1]` after the
remap loop). -/
def ngramDegree (L : List (List Nat)) (g : Nat) : Nat :=
  (keyToNgramEdges L).count g

/-- `ngram_offsets`: cumulative sums of the inbound degrees (length
`G + 1`). -/
def ngramOffsets (L : List (List Nat)) : List Nat :=
  (List.range ((ngramTable L).length + 1)).map
    (fun i => ((List.range i).map (ngramDegree L)).sum)

/-- The `(key_id, ngram_id)` of every key→gram edge in edge order: the
iteration of the inverted-index loop (keys in order via `key_offsets`,
gram ids pulled from `key_to_ngram_edges`). -/
def edgesWithKid (L : List (List Nat)) : List (Nat × Nat) :=
  (L.enum.map
    (fun p => (sortedDistinct p.2).map (fun g => (p.1, idxIn (ngramTable L) g)))).flatten

/-- One step of the inverted-index loop of `From::from`
(`src/corpus.rs:188-203`): state = (`gram_to_key_edges`, `ngram_degrees`).
The source computes the write position as
`ngram_degrees.get_unchecked(ngram_id) + ngram_degree` — the same value
read twice, i.e. twice the current degree. -/
def seqInvStep (st : List Nat × List Nat) (e : Nat × Nat) : List Nat × List Nat :=
  let d := st.2.getD e.2 0
  (st.1.set (d + d) e.1, st.2.set e.2 (d + 1))

/-- One step of the inverted-index loop of `Corpus::par_from`
(`src/corpus_par_from.rs:282-297`): the write position is
`ngram_offsets[ngram_id] + ngram_degree`. -/
def parInvStep (off : List Nat) (st : List Nat × List Nat) (e : Nat × Nat) :
    List Nat × List Nat :=
  let d := st.2.getD e.2 0
  (st.1.set (off.getD e.2 0 + d) e.1, st.2.set e.2 (d + 1))

/-- `gram_to_key_edges` as the sequential builder fills it (zero
initialised, as `BitFieldVec::new` is). -/
def gramToKeyEdgesSeq (L : List (List Nat)) : List Nat :=
  ((edgesWithKid L).foldl seqInvStep
    (List.replicate (keyToNgramEdges L).length 0,
     List.replicate (ngramTable L).length 0)).1

/-- `gram_to_key_edges` as the parallel builder fills it. -/
def gramToKeyEdgesPar (L : List (List Nat)) : List Nat :=
  ((edgesWithKid L).foldl (parInvStep (ngramOffsets L))
    (List.replicate (keyToNgramEdges L).length 0,
     List.replicate (ngramTable L).length 0)).1

/-- The assembled corpus graph components. -/
structure CorpusModel where
  keyOffsets : List Nat
  ngramTable : List Nat
  keyToNgramEdges : List Nat
  ngramOffsets : List Nat
  gramToKeyEdges : List Nat
  cooccurrences : List Nat
  deriving Repr, DecidableEq

/-- The corpus the sequential `From::from` assembles (when it returns). -/
def seqCorpus (L : List (List Nat)) : CorpusModel :=
  ⟨keyOffsets L, ngramTable L, keyToNgramEdges L, ngramOffsets L,
    gramToKeyEdgesSeq L, (L.map keyCounts).flatten⟩

/-- The corpus `Corpus::par_from` assembles.  Its key parsing
(`Self::parse_keys`, not part of the sources at hand) is modelled from the
spec: per-key sorted `(gram, count)` lists merged in key order, producing
the same gram table, offsets and edge vectors as the sequential
extraction; the builds then differ only in the inverted-index loop. -/
def parCorpus (L : List (List Nat)) : CorpusModel :=
  ⟨keyOffsets L, ngramTable L, keyToNgramEdges L, ngramOffsets L,
    gramToKeyEdgesPar L, (L.map keyCounts).flatten⟩

/-- Outcome of a corpus build: a corpus, an `assert`/`unwrap` panic, or a
typed error surfaced to the caller (the vocabulary of the spec's error
design; the sources never produce one). -/
inductive BuildOutcome where
  | built (c : CorpusModel)
  | panicked
  | emptyCorpusError
  deriving Repr, DecidableEq

/-- `From::from` (`src/corpus.rs`): `assert!(!ngrams.is_empty())` panics
when no ngram was extracted from any key; otherwise the corpus is
assembled. -/
def corpusFrom (L : List (List Nat)) : BuildOutcome :=
  if ngramTable L = [] then .panicked else .built (seqCorpus L)

/-- `Corpus::par_from` (`src/corpus_par_from.rs`): `ngrams.last().unwrap()`
panics when the ngram vector is empty. -/
def corpusParFrom (L : List (List Nat)) : BuildOutcome :=
  if ngramTable L = [] then .panicked else .built (parCorpus L)

/-- `srcs_from_dst` / `key_ids_from_ngram_id`
(`src/bit_field_bipartite_graph.rs:152-156`): the slice of
`dsts_to_srcs` between consecutive destination offsets. -/
def srcsFromDst (c : CorpusModel) (g : Nat) : List Nat :=
  (c.gramToKeyEdges.drop (c.ngramOffsets.getD g 0)).take
    (c.ngramOffsets.getD (g + 1) 0 - c.ngramOffsets.getD g 0)

/-- `dsts_from_src` / `ngram_ids_from_key`
(`src/bit_field_bipartite_graph.rs:161-165`): the slice of
`srcs_to_dsts` between consecutive source offsets. -/
def dstsFromSrc (c : CorpusModel) (kid : Nat) : List Nat :=
  (c.keyToNgramEdges.drop (c.keyOffsets.getD kid 0)).take
    (c.keyOffsets.getD (kid + 1) 0 - c.keyOffsets.getD kid 0)

/-- `src_degree` (`src/bit_field_bipartite_graph.rs:136-140`). -/
def srcDegree (c : CorpusModel) (kid : Nat) : Nat :=
  c.keyOffsets.getD (kid + 1) 0 - c.keyOffsets.getD kid 0

/-! ### Lemmas about the model -/

theorem insertSorted_ne_nil (g : Nat) (l : List Nat) : insertSorted g l ≠ [] := by
  cases l with
  | nil => simp [insertSorted]
  | cons x xs =>
    simp only [insertSorted]
    split
    · simp
    · split <;> simp

theorem sortedDistinct_eq_nil_iff (l : List Nat) : sortedDistinct l = [] ↔ l = [] := by
  cases l with
  | nil => simp [sortedDistinct]
  | cons x xs =>
    simp only [sortedDistinct, List.foldr_cons]
    constructor
    · intro h
      exact absurd h (insertSorted_ne_nil x _)
    · intro h
      exact absurd h (by simp)

theorem mem_insertSorted (g a : Nat) (l : List Nat) :
    a ∈ insertSorted g l ↔ a = g ∨ a ∈ l := by
  induction l with
  | nil => simp [insertSorted]
  | cons x xs ih =>
    simp only [insertSorted]
    split
    · simp
    · split
      · rename_i h1 h2
        subst h2
        simp only [List.mem_cons]
        constructor
        · intro h
          exact Or.inr h
        · rintro (h | h)
          · exact Or.inl h
          · exact h
      · simp only [List.mem_cons, ih]
        tauto

theorem mem_sortedDistinct (a : Nat) (l : List Nat) :
    a ∈ sortedDistinct l ↔ a ∈ l := by
  induction l with
  | nil => simp [sortedDistinct]
  | cons x xs ih =>
    simp only [sortedDistinct, List.foldr_cons] at *
    rw [mem_insertSorted, ih]
    simp

/-- Claim C7 counterexample: building from the empty key collection does
not surface a typed `EmptyCorpus` error; the build panics
(`assert!(!ngrams.is_empty())`). -/
theorem corpusFrom_empty_not_typed_error :
    corpusFrom [] = BuildOutcome.panicked ∧
    corpusFrom [] ≠ BuildOutcome.emptyCorpusError := by decide

/-- Claim C7 (amended): building from a key collection from which no gram
is extracted panics via the non-empty assertion and never returns a
corpus; no typed error is produced. -/
theorem corpusFrom_gramfree_panics (L : List (List Nat)) (h : L.flatten = []) :
    corpusFrom L = BuildOutcome.panicked ∧
    ∀ c, corpusFrom L ≠ BuildOutcome.built c := by
  have ht : ngramTable L = [] := by
    rw [ngramTable, h]
    rfl
  exact ⟨by simp [corpusFrom, ht], fun c => by simp [corpusFrom, ht]⟩

/-- Witness for the amended C7 at a collection of two gram-free keys. -/
theorem corpusFrom_gramfree_panics_witness :
    corpusFrom [[], []] = BuildOutcome.panicked ∧
    ∀ c, corpusFrom [[], []] ≠ BuildOutcome.built c :=
  corpusFrom_gramfree_panics [[], []] rfl

/-- Claim C3, evaluated at the failing input `[[0,1],[0,2]]`: the
sequential build succeeds, but the key list of gram `0`
(`srcs_from_dst 0`) is `[1, 0]`, which is not strictly increasing — the
inverted-index loop of `From::from` writes at `degree + degree` instead of
`offset + degree`. -/
theorem seq_srcs_from_dst_not_increasing :
    corpusFrom [[0, 1], [0, 2]] = BuildOutcome.built (seqCorpus [[0, 1], [0, 2]]) ∧
    srcsFromDst (seqCorpus [[0, 1], [0, 2]]) 0 = [1, 0] ∧
    ¬ List.Chain' (· < ·) (srcsFromDst (seqCorpus [[0, 1], [0, 2]]) 0) := by
  have h : srcsFromDst (seqCorpus [[0, 1], [0, 2]]) 0 = [1, 0] := by decide
  refine ⟨by decide, h, ?_⟩
  rw [h]
  simp [List.chain'_cons]

/-- Claim C2, evaluated at the failing input `[[0,1],[0,2]]`: the
sequential and parallel builders disagree on `gram_to_key_edges`
(`[1,0,1,0]` against the correct `[0,1,0,1]`), so the corpora are not
identical. -/
theorem seq_par_builds_differ :
    corpusFrom [[0, 1], [0, 2]] = BuildOutcome.built (seqCorpus [[0, 1], [0, 2]]) ∧
    corpusParFrom [[0, 1], [0, 2]] = BuildOutcome.built (parCorpus [[0, 1], [0, 2]]) ∧
    (seqCorpus [[0, 1], [0, 2]]).gramToKeyEdges = [1, 0, 1, 0] ∧
    (parCorpus [[0, 1], [0, 2]]).gramToKeyEdges = [0, 1, 0, 1] ∧
    seqCorpus [[0, 1], [0, 2]] ≠ parCorpus [[0, 1], [0, 2]] := by decide

theorem keyOffsets_getD (L : List (List Nat)) (i : Nat) (h : i ≤ L.length) :
    (keyOffsets L).getD i 0 =
      ((L.take i).map (fun k => (sortedDistinct k).length)).sum := by
  rw [keyOffsets, List.getD_eq_getElem _ _ (by simp; omega), List.getElem_map,
    List.getElem_range]

theorem srcDegree_seq (L : List (List Nat)) (kid : Nat) (h : kid < L.length) :
    srcDegree (seqCorpus L) kid = (sortedDistinct (L.getD kid [])).length := by
  show (keyOffsets L).getD (kid + 1) 0 - (keyOffsets L).getD kid 0 = _
  rw [keyOffsets_getD L (kid + 1) (by omega), keyOffsets_getD L kid (by omega),
    List.take_succ, List.getElem?_eq_getElem h]
  simp only [Option.toList_some, List.map_append, List.map_cons, List.map_nil,
    List.sum_append, List.sum_cons, List.sum_nil, List.getD_eq_getElem _ _ h]
  omega

/-- Claim C8: for every built corpus and key id, the weights iterator of
that key (`weights_from_src` / `ngram_cooccurrences_from_key`, i.e. the
`Succ` decode at the key's offset) yields exactly the key's cooccurrence
list: its length is `src_degree(kid)` and every weight is strictly
positive, because `Key::counts` starts every entry at `1` and only
increments. -/
theorem weights_from_src_len_pos (L : List (List Nat)) (kid : Nat) (h : kid < L.length) :
    labelsAt (pushAll (L.map keyCounts)).build kid = some (keyCounts (L.getD kid [])) ∧
    (keyCounts (L.getD kid [])).length = srcDegree (seqCorpus L) kid ∧
    ∀ w ∈ keyCounts (L.getD kid []), 0 < w := by
  refine ⟨?_, ?_, ?_⟩
  · rw [labelsAt_pushAll (L.map keyCounts) kid (by simpa using h)]
    congr 1
    rw [List.getD_eq_getElem _ _ (by simpa using h), List.getElem_map,
      List.getD_eq_getElem _ _ h]
  · rw [keyCounts, List.length_map, srcDegree_seq L kid h]
  · intro w hw
    rw [keyCounts, List.mem_map] at hw
    obtain ⟨g, hg, rfl⟩ := hw
    rw [mem_sortedDistinct] at hg
    exact List.count_pos_iff.mpr hg

/-- Witness for C8 at the two-key corpus `[[0,1],[0,2]]`, key id `0`. -/
theorem weights_from_src_len_pos_witness :
    labelsAt (pushAll (([[0, 1], [0, 2]] : List (List Nat)).map keyCounts)).build 0 =
      some (keyCounts (([[0, 1], [0, 2]] : List (List Nat)).getD 0 [])) ∧
    (keyCounts (([[0, 1], [0, 2]] : List (List Nat)).getD 0 [])).length =
      srcDegree (seqCorpus [[0, 1], [0, 2]]) 0 ∧
    ∀ w ∈ keyCounts (([[0, 1], [0, 2]] : List (List Nat)).getD 0 []), 0 < w :=
  weights_from_src_len_pos [[0, 1], [0, 2]] 0 (by decide)

/-! ## `SearchResult` and the bounded heap of `src/search_result.rs`

Scores are floats `F: Float`; a float is modelled as `Option ℚ` with
`none` for NaN: every float comparison used by the source
(`partial_cmp`, `==`, `<`) is defined on rationals and undefined (NaN)
values exactly as IEEE comparisons are.  Keys are key ids. -/

/-- A similarity score: `none` models NaN. -/
abbrev Score := Option ℚ

/-- `SearchResult` (`src/search_result.rs:14-19`). -/
structure SearchResult where
  key : Nat
  score : Score
  deriving Repr, DecidableEq

/-- `PartialOrd::partial_cmp` on scores: `none` when either side is
NaN. -/
def scorePartialCmp : Score → Score → Option Ordering
  | some a, some b => some (compare a b)
  | _, _ => none

/-- `Ord::cmp for SearchResult` (`src/search_result.rs:23-27`):
`self.score.partial_cmp(&other.score).unwrap()` — only the scores are
inspected; the `unwrap` panic on an incomparable (NaN) score is `none`. -/
def srCmp (a b : SearchResult) : Option Ordering :=
  scorePartialCmp a.score b.score

/-- `PartialEq for SearchResult` (`src/search_result.rs:35-39`):
`self.score == other.score`, float equality (false on NaN). -/
def srEq (a b : SearchResult) : Bool :=
  match a.score, b.score with
  | some x, some y => x == y
  | _, _ => false

/-- `a > b` as `SearchResultsHeap::push` evaluates it (via `Ord`). -/
def srGt (a b : SearchResult) : Bool :=
  srCmp a b == some Ordering.gt

/-- Insertion into the heap's element multiset, kept as a list sorted
ascending by score (the documented contract of
`BinaryHeap<Reverse<SearchResult>>`: a min-heap on the `Ord` above, whose
order among equal elements is unspecified). -/
def heapInsert (r : SearchResult) : List SearchResult → List SearchResult
  | [] => [r]
  | x :: xs => if srGt x r then r :: x :: xs else x :: heapInsert r xs

/-- `SearchResultsHeap::push` (`src/search_result.rs:86-95`): insert while
below capacity; at capacity, compare against the minimum (`peek`) and
replace it only when strictly greater. -/
def heapPush (n : Nat) (h : List SearchResult) (r : SearchResult) :
    List SearchResult :=
  if h.length < n then heapInsert r h
  else
    match h with
    | [] => []
    | m :: rest => if srGt r m then heapInsert r rest else m :: rest

/-- `SearchResultsHeap::into_sorted_vec` (`src/search_result.rs:98-104`):
ascending order of `Reverse` values = descending score order. -/
def intoSortedVec (h : List SearchResult) : List SearchResult :=
  h.reverse

/-- Feeding a whole candidate list into a fresh heap of capacity `n`. -/
def heapPushAll (n : Nat) (rs : List SearchResult) : List SearchResult :=
  rs.foldl (heapPush n) []

/-! ### C4: at most `k` results, emitted in descending score order -/

theorem srGt_some (a b : SearchResult) (qa qb : ℚ) (ha : a.score = some qa)
    (hb : b.score = some qb) : srGt a b = true ↔ qb < qa := by
  simp only [srGt, srCmp, ha, hb, scorePartialCmp]
  cases hcmp : compare qa qb with
  | lt =>
    have hlt := compare_lt_iff_lt.mp hcmp
    simp only [show ((some Ordering.lt == some Ordering.gt) = true) = False from by decide]
    exact iff_of_false (fun h => h) (fun h => absurd h (not_lt.mpr (le_of_lt hlt)))
  | eq =>
    have heq := compare_eq_iff_eq.mp hcmp
    simp only [show ((some Ordering.eq == some Ordering.gt) = true) = False from by decide]
    exact iff_of_false (fun h => h) (fun h => absurd h (by rw [heq]; exact lt_irrefl qb))
  | gt =>
    have hgt := compare_gt_iff_gt.mp hcmp
    simp only [show ((some Ordering.gt == some Ordering.gt) = true) = True from by decide]
    exact iff_of_true trivial hgt

theorem heapInsert_length (r : SearchResult) (h : List SearchResult) :
    (heapInsert r h).length = h.length + 1 := by
  induction h with
  | nil => rfl
  | cons x xs ih =>
    simp only [heapInsert]
    split
    · simp
    · simp [ih]

theorem heapInsert_allSome (r : SearchResult) (h : List SearchResult)
    (hr : r.score.isSome) (hh : ∀ x ∈ h, x.score.isSome) :
    ∀ x ∈ heapInsert r h, x.score.isSome := by
  induction h with
  | nil =>
    intro x hx
    simp only [heapInsert, List.mem_singleton] at hx
    subst hx
    exact hr
  | cons y ys ih =>
    intro x hx
    simp only [heapInsert] at hx
    split at hx
    · simp only [List.mem_cons] at hx
      rcases hx with rfl | hx
      · exact hr
      · exact hh x (by simp [hx])
    · simp only [List.mem_cons] at hx
      rcases hx with rfl | hx
      · exact hh x (by simp)
      · exact ih (fun z hz => hh z (by simp [hz])) x hx

theorem heapInsert_head (r : SearchResult) (h : List SearchResult) :
    (heapInsert r h).head? = some r ∨ (heapInsert r h).head? = h.head? := by
  cases h with
  | nil => simp [heapInsert]
  | cons x xs =>
    simp only [heapInsert]
    split
    · left; rfl
    · right; rfl

theorem heapInsert_chain (r : SearchResult) (h : List SearchResult)
    (hr : r.score.isSome) (hh : ∀ x ∈ h, x.score.isSome)
    (hc : List.Chain' (fun a b => a.score.getD 0 ≤ b.score.getD 0) h) :
    List.Chain' (fun a b => a.score.getD 0 ≤ b.score.getD 0) (heapInsert r h) := by
  induction h with
  | nil => simp [heapInsert]
  | cons x xs ih =>
    obtain ⟨qr, hqr⟩ := Option.isSome_iff_exists.mp hr
    obtain ⟨qx, hqx⟩ := Option.isSome_iff_exists.mp (hh x (by simp))
    simp only [heapInsert]
    split
    · rename_i hgt
      rw [srGt_some x r qx qr hqx hqr] at hgt
      refine List.Chain'.cons ?_ hc
      simp [hqr, hqx]
      exact le_of_lt hgt
    · rename_i hgt
      have hxr : qx ≤ qr := by
        by_contra hcon
        exact hgt ((srGt_some x r qx qr hqx hqr).mpr (lt_of_not_le hcon))
      have hctail : List.Chain' (fun a b => a.score.getD 0 ≤ b.score.getD 0) xs :=
        hc.tail
      have hihc := ih (fun z hz => hh z (by simp [hz])) hctail
      rw [List.chain'_cons']
      refine ⟨?_, hihc⟩
      intro y hy
      rcases heapInsert_head r xs with hh1 | hh1
      · rw [hh1] at hy
        simp only [Option.mem_def, Option.some.injEq] at hy
        subst hy
        simp [hqx, hqr, hxr]
      · rw [hh1] at hy
        have := List.chain'_cons'.mp hc
        exact this.1 y hy



/-- The heap invariant: within capacity, sorted ascending by score, all
scores comparable. -/
def HeapInv (n : Nat) (h : List SearchResult) : Prop :=
  h.length ≤ n ∧
  List.Chain' (fun a b => a.score.getD 0 ≤ b.score.getD 0) h ∧
  ∀ x ∈ h, x.score.isSome

theorem heapPush_inv (n : Nat) (h : List SearchResult) (r : SearchResult)
    (hr : r.score.isSome) (hinv : HeapInv n h) : HeapInv n (heapPush n h r) := by
  obtain ⟨hlen, hchain, hsome⟩ := hinv
  by_cases hlt : h.length < n
  · rw [heapPush.eq_def, if_pos hlt]
    exact ⟨by rw [heapInsert_length]; omega,
      heapInsert_chain r h hr hsome hchain,
      heapInsert_allSome r h hr hsome⟩
  · rw [heapPush.eq_def, if_neg hlt]
    match h, hlen, hchain, hsome with
    | [], _, _, _ => exact ⟨by simp, by simp, by simp⟩
    | m :: rest, hlen, hchain, hsome =>
      show HeapInv n (if srGt r m = true then heapInsert r rest else m :: rest)
      by_cases hgt : srGt r m = true
      · rw [if_pos hgt]
        refine ⟨?_, ?_, ?_⟩
        · rw [heapInsert_length]
          simp only [List.length_cons] at hlen
          omega
        · exact heapInsert_chain r rest hr (fun z hz => hsome z (by simp [hz])) hchain.tail
        · exact heapInsert_allSome r rest hr (fun z hz => hsome z (by simp [hz]))
      · rw [if_neg hgt]
        exact ⟨hlen, hchain, hsome⟩

theorem foldl_heapPush_inv (n : Nat) (rs : List SearchResult) :
    ∀ (h0 : List SearchResult), (∀ r ∈ rs, r.score.isSome) → HeapInv n h0 →
      HeapInv n (rs.foldl (heapPush n) h0) := by
  induction rs with
  | nil => intro h0 _ hb; exact hb
  | cons r rs ih =>
    intro h0 hs hb
    rw [List.foldl_cons]
    exact ih _ (fun z hz => hs z (by simp [hz]))
      (heapPush_inv n h0 r (hs r (by simp)) hb)

theorem heapPushAll_inv (n : Nat) (rs : List SearchResult)
    (hs : ∀ r ∈ rs, r.score.isSome) : HeapInv n (heapPushAll n rs) :=
  foldl_heapPush_inv n rs [] hs ⟨by simp, by simp, by simp⟩

theorem heapInsert_perm (r : SearchResult) (h : List SearchResult) :
    (heapInsert r h).Perm (r :: h) := by
  induction h with
  | nil => exact List.Perm.refl _
  | cons x xs ih =>
    simp only [heapInsert]
    split
    · exact List.Perm.refl _
    · exact (ih.cons x).trans (List.Perm.swap r x xs)

theorem chain_head_le : ∀ (m : SearchResult) (rest : List SearchResult),
    List.Chain' (fun a b => a.score.getD 0 ≤ b.score.getD 0) (m :: rest) →
    ∀ t ∈ rest, m.score.getD 0 ≤ t.score.getD 0 := by
  intro m rest
  induction rest generalizing m with
  | nil =>
    intro _ t ht
    simp at ht
  | cons y ys ih =>
    intro hc t ht
    obtain ⟨h1, h2⟩ := List.chain'_cons.mp hc
    rcases List.mem_cons.mp ht with rfl | ht
    · exact h1
    · exact le_trans h1 (ih y h2 t ht)

theorem srGt_false_le (a b : SearchResult) (qa qb : ℚ) (ha : a.score = some qa)
    (hb : b.score = some qb) (hgt : srGt a b = false) : qa ≤ qb := by
  by_contra hcon
  rw [(srGt_some a b qa qb ha hb).mpr (lt_of_not_le hcon)] at hgt
  exact absurd hgt (by simp)

theorem foldl_heapPush_drop (n : Nat) (rs : List SearchResult) :
    ∀ (H dropped : List SearchResult),
      HeapInv n H →
      (H.length < n → dropped = []) →
      (∀ s ∈ dropped, ∀ t ∈ H, s.score.getD 0 ≤ t.score.getD 0) →
      (∀ s ∈ dropped, s.score.isSome) →
      (∀ r ∈ rs, r.score.isSome) →
      ∃ dropped',
        ((rs.foldl (heapPush n) H) ++ dropped').Perm ((H ++ dropped) ++ rs) ∧
        ((rs.foldl (heapPush n) H).length < n → dropped' = []) ∧
        (∀ s ∈ dropped', ∀ t ∈ rs.foldl (heapPush n) H,
          s.score.getD 0 ≤ t.score.getD 0) ∧
        (∀ s ∈ dropped', s.score.isSome) := by
  induction rs with
  | nil =>
    intro H dropped hinv hemp hpt hds _
    exact ⟨dropped, by simp, hemp, hpt, hds⟩
  | cons r rs ih =>
    intro H dropped hinv hemp hpt hds hrs
    obtain ⟨hlen, hchain, hsome⟩ := hinv
    have hr : r.score.isSome := hrs r (by simp)
    have hinv' : HeapInv n (heapPush n H r) :=
      heapPush_inv n H r hr ⟨hlen, hchain, hsome⟩
    have step : ∃ dropped₁,
        ((heapPush n H r) ++ dropped₁).Perm (r :: (H ++ dropped)) ∧
        ((heapPush n H r).length < n → dropped₁ = []) ∧
        (∀ s ∈ dropped₁, ∀ t ∈ heapPush n H r,
          s.score.getD 0 ≤ t.score.getD 0) ∧
        (∀ s ∈ dropped₁, s.score.isSome) := by
      by_cases hlt : H.length < n
      · have hde : dropped = [] := hemp hlt
        subst hde
        have hpush : heapPush n H r = heapInsert r H := by
          rw [heapPush.eq_def, if_pos hlt]
        rw [hpush]
        refine ⟨[], ?_, fun _ => rfl, by simp, by simp⟩
        simp only [List.append_nil]
        exact heapInsert_perm r H
      · match H, hlen, hchain, hsome, hpt, hlt with
        | [], _, _, _, hpt, hlt =>
          have hpush : heapPush n [] r = [] := by
            rw [heapPush.eq_def, if_neg hlt]
          rw [hpush]
          refine ⟨r :: dropped, List.Perm.refl _, ?_, ?_, ?_⟩
          · intro hcon
            simp only [List.length_nil] at hcon hlt
            omega
          · intro s _ t ht
            simp at ht
          · intro s hs
            rcases List.mem_cons.mp hs with rfl | hs
            · exact hr
            · exact hds s hs
        | m :: rest, hlen, hchain, hsome, hpt, hlt =>
          have hm : m.score.isSome := hsome m (by simp)
          obtain ⟨qr, hqr⟩ := Option.isSome_iff_exists.mp hr
          obtain ⟨qm, hqm⟩ := Option.isSome_iff_exists.mp hm
          by_cases hgt : srGt r m = true
          · have hpush : heapPush n (m :: rest) r = heapInsert r rest := by
              rw [heapPush.eq_def, if_neg hlt]
              show (if srGt r m = true then heapInsert r rest else m :: rest) = _
              rw [if_pos hgt]
            rw [hpush]
            have hmr : qm < qr := (srGt_some r m qr qm hqr hqm).mp hgt
            have hmrle : m.score.getD 0 ≤ r.score.getD 0 := by
              simp only [hqm, hqr, Option.getD_some]
              exact le_of_lt hmr
            refine ⟨m :: dropped, ?_, ?_, ?_, ?_⟩
            · exact ((heapInsert_perm r rest).append_right _).trans
                (List.perm_middle.cons r)
            · intro hcon
              rw [heapInsert_length] at hcon
              simp only [List.length_cons] at hlt
              omega
            · intro s hs t ht
              have htmem : t ∈ r :: rest := (heapInsert_perm r rest).mem_iff.mp ht
              rcases List.mem_cons.mp hs with hs1 | hs
              · rw [hs1]
                rcases List.mem_cons.mp htmem with ht1 | htmem
                · rw [ht1]
                  exact hmrle
                · exact chain_head_le m rest hchain t htmem
              · rcases List.mem_cons.mp htmem with ht1 | htmem
                · rw [ht1]
                  exact le_trans (hpt s hs m (by simp)) hmrle
                · exact hpt s hs t (by simp [htmem])
            · intro s hs
              rcases List.mem_cons.mp hs with rfl | hs
              · exact hm
              · exact hds s hs
          · have hpush : heapPush n (m :: rest) r = m :: rest := by
              rw [heapPush.eq_def, if_neg hlt]
              show (if srGt r m = true then heapInsert r rest else m :: rest) = _
              rw [if_neg hgt]
            rw [hpush]
            have hrm : qr ≤ qm :=
              srGt_false_le r m qr qm hqr hqm (by simpa using hgt)
            have hrmle : r.score.getD 0 ≤ m.score.getD 0 := by
              simp only [hqm, hqr, Option.getD_some]
              exact hrm
            refine ⟨r :: dropped, List.perm_middle, ?_, ?_, ?_⟩
            · intro hcon
              simp only [List.length_cons] at hlt hcon
              omega
            · intro s hs t ht
              rcases List.mem_cons.mp hs with hs1 | hs
              · rw [hs1]
                rcases List.mem_cons.mp ht with ht1 | ht
                · rw [ht1]
                  exact hrmle
                · exact le_trans hrmle (chain_head_le m rest hchain t ht)
              · exact hpt s hs t ht
            · intro s hs
              rcases List.mem_cons.mp hs with rfl | hs
              · exact hr
              · exact hds s hs
    obtain ⟨dropped₁, hperm₁, hemp₁, hpt₁, hds₁⟩ := step
    rw [List.foldl_cons]
    obtain ⟨dropped', hperm', hemp', hpt', hds'⟩ :=
      ih (heapPush n H r) dropped₁ hinv' hemp₁ hpt₁ hds₁
        (fun z hz => hrs z (by simp [hz]))
    refine ⟨dropped', ?_, hemp', hpt', hds'⟩
    exact hperm'.trans ((hperm₁.append_right rs).trans List.perm_middle.symm)

/-- Claim C4: for every candidate list (scores comparable, i.e. not NaN —
the search feeds only scores `≥ τ`) and capacity `k`, the bounded min-heap
retains at most `k` candidates — every dropped candidate scoring no higher
than every retained one — and emits them in non-increasing score order. -/
theorem search_heap_topk (n : Nat) (rs : List SearchResult)
    (hs : ∀ r ∈ rs, r.score.isSome) :
    (intoSortedVec (heapPushAll n rs)).length ≤ n ∧
    List.Chain' (fun a b => b.score.getD 0 ≤ a.score.getD 0)
      (intoSortedVec (heapPushAll n rs)) ∧
    (∃ dropped, rs.Perm (intoSortedVec (heapPushAll n rs) ++ dropped) ∧
      ∀ s ∈ dropped, ∀ t ∈ intoSortedVec (heapPushAll n rs),
        s.score.getD 0 ≤ t.score.getD 0) := by
  obtain ⟨hlen, hchain, _⟩ := heapPushAll_inv n rs hs
  refine ⟨by simpa [intoSortedVec] using hlen, ?_, ?_⟩
  · rw [intoSortedVec, List.chain'_reverse]
    exact hchain
  · obtain ⟨dropped', hperm, _, hpt, _⟩ :=
      foldl_heapPush_drop n rs [] [] ⟨by simp, by simp, by simp⟩
        (fun _ => rfl) (by simp) (by simp) hs
    refine ⟨dropped', ?_, ?_⟩
    · have h1 : rs.Perm (heapPushAll n rs ++ dropped') := by
        have := hperm.symm
        simpa [heapPushAll] using this
      exact h1.trans
        (((heapPushAll n rs).reverse_perm.symm).append_right dropped')
    · intro s hsd t ht
      rw [intoSortedVec, List.mem_reverse] at ht
      exact hpt s hsd t (by simpa [heapPushAll] using ht)

/-- Witness for C4: capacity 2, three candidates. -/
theorem search_heap_topk_witness :
    (intoSortedVec (heapPushAll 2
        [⟨0, some (1/2)⟩, ⟨1, some 1⟩, ⟨2, some (3/4)⟩])).length ≤ 2 ∧
    List.Chain' (fun a b => b.score.getD 0 ≤ a.score.getD 0)
      (intoSortedVec (heapPushAll 2
        [⟨0, some (1/2)⟩, ⟨1, some 1⟩, ⟨2, some (3/4)⟩])) ∧
    (∃ dropped,
      ([⟨0, some (1/2)⟩, ⟨1, some 1⟩, ⟨2, some (3/4)⟩] :
        List SearchResult).Perm
        (intoSortedVec (heapPushAll 2
          [⟨0, some (1/2)⟩, ⟨1, some 1⟩, ⟨2, some (3/4)⟩]) ++ dropped) ∧
      ∀ s ∈ dropped, ∀ t ∈ intoSortedVec (heapPushAll 2
          [⟨0, some (1/2)⟩, ⟨1, some 1⟩, ⟨2, some (3/4)⟩]),
        s.score.getD 0 ≤ t.score.getD 0) :=
  search_heap_topk 2 _ (by
    intro r hr
    simp only [List.mem_cons, List.not_mem_nil, or_false] at hr
    rcases hr with rfl | rfl | rfl <;> rfl)

/-! ### C5: tie handling among equal scores -/

theorem compare_self_rat (q : ℚ) : compare q q = Ordering.eq :=
  compare_eq_iff_eq.mpr rfl

theorem srGt_tie (a b : SearchResult) (qa : ℚ) (ha : a.score = some qa)
    (hb : b.score = some qa) : srGt a b = false := by
  rw [srGt, srCmp, ha, hb]
  simp only [scorePartialCmp, compare_self_rat]
  decide

theorem srCmp_tie (a b : SearchResult) (qa : ℚ) (ha : a.score = some qa)
    (hb : b.score = some qa) : srCmp a b = some Ordering.eq := by
  rw [srCmp, ha, hb]
  simp only [scorePartialCmp, compare_self_rat]

theorem heapPush_one_empty (r : SearchResult) : heapPush 1 [] r = [r] := by
  rw [heapPush.eq_def]
  simp [heapInsert]

theorem heapPush_one_full_tie (m r : SearchResult) (q : ℚ)
    (hm : m.score = some q) (hr : r.score = some q) : heapPush 1 [m] r = [m] := by
  rw [heapPush.eq_def]
  rw [if_neg (by simp : ¬ ([m].length < 1))]
  show (if srGt r m = true then heapInsert r [] else [m]) = [m]
  rw [srGt_tie r m q hr hm]
  simp

/-- Claim C5 counterexample: with a full capacity-1 heap holding key 2,
an equal-score candidate with the smaller key 1 is discarded — retention
is not determined by ascending key id — and the comparator reports the
two candidates equal without looking at the keys. -/
theorem heap_tie_retention_counterexample :
    intoSortedVec (heapPushAll 1
      [⟨2, some (1/2)⟩, ⟨1, some (1/2)⟩]) = [⟨2, some (1/2)⟩] ∧
    srCmp ⟨1, some (1/2)⟩ ⟨2, some (1/2)⟩ = some Ordering.eq := by
  constructor
  · rw [heapPushAll, List.foldl_cons, heapPush_one_empty, List.foldl_cons,
      heapPush_one_full_tie _ _ (1/2) rfl rfl]
    rfl
  · exact srCmp_tie _ _ (1/2) rfl rfl

/-- Claim C5 (amended): `SearchResult` comparison inspects only the score,
so among equal-score candidates nothing is decided by the key id: a full
heap discards any equal-score newcomer whatever its key, making retention
follow arrival order; the order among retained equal-score results is not
specified by the comparator. -/
theorem equal_score_retention_by_arrival (k₁ k₂ : Nat) (q : ℚ) :
    intoSortedVec (heapPushAll 1 [⟨k₁, some q⟩, ⟨k₂, some q⟩]) = [⟨k₁, some q⟩] ∧
    srCmp ⟨k₁, some q⟩ ⟨k₂, some q⟩ = some Ordering.eq := by
  constructor
  · rw [heapPushAll, List.foldl_cons, heapPush_one_empty, List.foldl_cons,
      heapPush_one_full_tie _ _ q rfl rfl]
    rfl
  · exact srCmp_tie _ _ q rfl rfl

/-- Witness for the amended C5 at keys 2 and 7, score 1. -/
theorem equal_score_retention_by_arrival_witness :
    intoSortedVec (heapPushAll 1 [⟨2, some 1⟩, ⟨7, some 1⟩]) = [⟨2, some 1⟩] ∧
    srCmp ⟨2, some 1⟩ ⟨7, some 1⟩ = some Ordering.eq :=
  equal_score_retention_by_arrival 2 7 1

/-! ### C9: equality and ordering inspect only the score; NaN panics -/

/-- Claim C9: `SearchResult` equality and ordering inspect only the score
field — equal scores with different keys compare as equal — and `cmp`
unwraps a partial comparison, so comparing against a NaN score panics
(modelled by `none`). -/
theorem sr_cmp_score_only :
    (∀ k₁ k₂ : Nat, ∀ q : ℚ,
      srEq ⟨k₁, some q⟩ ⟨k₂, some q⟩ = true ∧
      srCmp ⟨k₁, some q⟩ ⟨k₂, some q⟩ = some Ordering.eq) ∧
    (∀ k₁ k₂ : Nat, ∀ s : Score,
      srCmp ⟨k₁, none⟩ ⟨k₂, s⟩ = none ∧ srCmp ⟨k₁, s⟩ ⟨k₂, none⟩ = none) := by
  constructor
  · intro k₁ k₂ q
    exact ⟨by simp [srEq], srCmp_tie _ _ q rfl rfl⟩
  · intro k₁ k₂ s
    refine ⟨rfl, ?_⟩
    rw [srCmp]
    cases s <;> rfl

/-! ## The bipartite graph of `src/bit_field_bipartite_graph.rs` -/

/-- The Elias–Fano `pred` operation (the sux contract the graph relies
on): on a monotone sequence, the index and value of the last element
`≤ x`, scanning while elements stay `≤ x`; `none` when even the first
element exceeds `x` (the source `unwrap`s that case). -/
def efPred : List Nat → Nat → Option (Nat × Nat)
  | [], _ => none
  | v :: rest, x =>
    if v ≤ x then
      match efPred rest x with
      | some p => some (p.1 + 1, p.2)
      | none => some (0, v)
    else none

/-- `WeightedBitFieldBipartiteGraph` (`src/bit_field_bipartite_graph.rs`):
the per-edge weight store, the two Elias–Fano offset sequences and the two
packed edge vectors. -/
structure WBGraph where
  srcsToDstsWeights : Weights
  srcsOffsets : List Nat
  dstsOffsets : List Nat
  srcsToDsts : List Nat
  dstsToSrcs : List Nat
  deriving Repr, DecidableEq

/-- `WeightedBitFieldBipartiteGraph::new`
(`src/bit_field_bipartite_graph.rs:55-72`): the two `assert_eq!` checks —
a failed assertion (panic) is `none`. -/
def WBGraph.new (w : Weights) (sOff dOff : List Nat) (sd ds : List Nat) :
    Option WBGraph :=
  if sd.length = w.numWeights ∧ sd.length = ds.length then
    some ⟨w, sOff, dOff, sd, ds⟩
  else none

/-- `number_of_edges` (`src/bit_field_bipartite_graph.rs:131-133`). -/
def WBGraph.numberOfEdges (g : WBGraph) : Nat :=
  g.srcsToDstsWeights.numWeights

/-- `src_id_from_edge_id` (`src/bit_field_bipartite_graph.rs:101-103`):
`srcs_offsets.pred(&edge_id).unwrap().0`. -/
def WBGraph.srcIdFromEdgeId (g : WBGraph) (e : Nat) : Option Nat :=
  (efPred g.srcsOffsets e).map Prod.fst

/-- `dst_id_from_edge_id` (`src/bit_field_bipartite_graph.rs:114-116`). -/
def WBGraph.dstIdFromEdgeId (g : WBGraph) (e : Nat) : Option Nat :=
  (efPred g.dstsOffsets e).map Prod.fst

/-! ### C6: `pred` picks the unique enclosing offset interval -/

theorem chain_le_getD (l : List Nat) (hc : List.Chain' (· ≤ ·) l) :
    ∀ i j, i ≤ j → j < l.length → l.getD i 0 ≤ l.getD j 0 := by
  intro i j hij hj
  rcases Nat.eq_or_lt_of_le hij with rfl | hlt
  · exact le_refl _
  · rw [List.getD_eq_getElem _ _ (by omega), List.getD_eq_getElem _ _ hj]
    exact List.pairwise_iff_getElem.mp (List.chain'_iff_pairwise.mp hc) i j (by omega) hj hlt

/-- On a monotone list whose head is `≤ e` and which contains an element
`> e`, `efPred` returns the index (with its value) of the unique
half-open interval `[l[i], l[i+1])` containing `e`. -/
theorem efPred_char (l : List Nat) (hc : List.Chain' (· ≤ ·) l) (e : Nat)
    (hhead : ∃ v, l.head? = some v ∧ v ≤ e) (hbig : ∃ E ∈ l, e < E) :
    ∃ i, efPred l e = some (i, l.getD i 0) ∧ l.getD i 0 ≤ e ∧
      e < l.getD (i + 1) 0 ∧
      ∀ j, l.getD j 0 ≤ e → e < l.getD (j + 1) 0 → j = i := by
  induction l with
  | nil =>
    obtain ⟨v, hv, _⟩ := hhead
    simp at hv
  | cons v rest ih =>
    obtain ⟨v', hv', hvle⟩ := hhead
    simp only [List.head?_cons, Option.some.injEq] at hv'
    subst hv'
    match rest, hc, hbig with
    | [], _, hbig =>
      obtain ⟨E, hE, heE⟩ := hbig
      simp only [List.mem_singleton] at hE
      subst hE
      omega
    | w :: rest', hc, hbig =>
      by_cases hw : w ≤ e
      · have hbig' : ∃ E ∈ w :: rest', e < E := by
          obtain ⟨E, hE, heE⟩ := hbig
          simp only [List.mem_cons] at hE
          rcases hE with rfl | hE
          · omega
          · exact ⟨E, List.mem_cons.mpr hE, heE⟩
        obtain ⟨i, hpred, hle, hlt, huniq⟩ :=
          ih hc.tail ⟨w, rfl, hw⟩ hbig'
        refine ⟨i + 1, ?_, ?_, ?_, ?_⟩
        · show (if v ≤ e then
              match efPred (w :: rest') e with
              | some p => some (p.1 + 1, p.2)
              | none => some (0, v)
            else none) = some (i + 1, (v :: w :: rest').getD (i + 1) 0)
          rw [if_pos hvle, hpred]
          rfl
        · exact hle
        · exact hlt
        · intro j hj1 hj2
          match j with
          | 0 =>
            simp only [List.getD_cons_succ, List.getD_cons_zero] at hj2
            omega
          | j + 1 =>
            have := huniq j hj1 hj2
            omega
      · refine ⟨0, ?_, hvle, by simpa using not_le.mp hw, ?_⟩
        · have hnone : efPred (w :: rest') e = none := by
            simp [efPred, hw]
          show (if v ≤ e then
              match efPred (w :: rest') e with
              | some p => some (p.1 + 1, p.2)
              | none => some (0, v)
            else none) = some (0, (v :: w :: rest').getD 0 0)
          rw [if_pos hvle, hnone]
          rfl
        · intro j hj1 hj2
          match j with
          | 0 => rfl
          | j + 1 =>
            exfalso
            have hlen : j + 1 + 1 < (v :: w :: rest').length := by
              by_contra hcon
              rw [List.getD_eq_default _ _ (by omega)] at hj2
              omega
            have hmono : (v :: w :: rest').getD 1 0 ≤
                (v :: w :: rest').getD (j + 1) 0 :=
              chain_le_getD _ hc 1 (j + 1) (by omega) (by omega)
            simp only [List.getD_cons_succ, List.getD_cons_zero] at hmono hj1
            omega
/-- Claim C6: for every edge id `e` below the edge count,
`src_id_from_edge_id(e)` — the predecessor of `e` in the `srcs_offsets`
Elias–Fano sequence — is the unique `kid` with
`srcs_offsets[kid] ≤ e < srcs_offsets[kid+1]`; the analogous uniqueness
holds for `dst_id_from_edge_id` over `dsts_offsets`.  The hypotheses are
the offset-sequence invariants every built graph satisfies: monotone,
first entry `0`, last entry `E > e`. -/
theorem edge_id_inversion (g : WBGraph) (e f : Nat)
    (hsmono : List.Chain' (· ≤ ·) g.srcsOffsets)
    (hshead : g.srcsOffsets.head? = some 0)
    (hslast : ∃ E, g.srcsOffsets.getLast? = some E ∧ e < E)
    (hdmono : List.Chain' (· ≤ ·) g.dstsOffsets)
    (hdhead : g.dstsOffsets.head? = some 0)
    (hdlast : ∃ E, g.dstsOffsets.getLast? = some E ∧ f < E) :
    (∃ kid, g.srcIdFromEdgeId e = some kid ∧
      g.srcsOffsets.getD kid 0 ≤ e ∧ e < g.srcsOffsets.getD (kid + 1) 0 ∧
      ∀ j, g.srcsOffsets.getD j 0 ≤ e → e < g.srcsOffsets.getD (j + 1) 0 →
        j = kid) ∧
    (∃ gid, g.dstIdFromEdgeId f = some gid ∧
      g.dstsOffsets.getD gid 0 ≤ f ∧ f < g.dstsOffsets.getD (gid + 1) 0 ∧
      ∀ j, g.dstsOffsets.getD j 0 ≤ f → f < g.dstsOffsets.getD (j + 1) 0 →
        j = gid) := by
  constructor
  · obtain ⟨E, hE, heE⟩ := hslast
    obtain ⟨i, hpred, hle, hlt, huniq⟩ := efPred_char g.srcsOffsets hsmono e
      ⟨0, hshead, Nat.zero_le e⟩ ⟨E, List.mem_of_mem_getLast? hE, heE⟩
    exact ⟨i, by rw [WBGraph.srcIdFromEdgeId, hpred, Option.map_some'], hle, hlt, huniq⟩
  · obtain ⟨E, hE, heE⟩ := hdlast
    obtain ⟨i, hpred, hle, hlt, huniq⟩ := efPred_char g.dstsOffsets hdmono f
      ⟨0, hdhead, Nat.zero_le f⟩ ⟨E, List.mem_of_mem_getLast? hE, heE⟩
    exact ⟨i, by rw [WBGraph.dstIdFromEdgeId, hpred, Option.map_some'], hle, hlt, huniq⟩

/-- Witness for C6 at offsets `[0,2,2,4]` / `[0,1,4]` (an empty key in the
middle), edge ids `2` and `2`. -/
theorem edge_id_inversion_witness :
    (∃ kid, (WBGraph.mk ⟨[], [], 3, 4⟩ [0, 2, 2, 4] [0, 1, 4]
        [0, 1, 0, 2] [0, 1, 0, 1]).srcIdFromEdgeId 2 = some kid ∧
      ([0, 2, 2, 4] : List Nat).getD kid 0 ≤ 2 ∧
      2 < ([0, 2, 2, 4] : List Nat).getD (kid + 1) 0 ∧
      ∀ j, ([0, 2, 2, 4] : List Nat).getD j 0 ≤ 2 →
        2 < ([0, 2, 2, 4] : List Nat).getD (j + 1) 0 → j = kid) ∧
    (∃ gid, (WBGraph.mk ⟨[], [], 3, 4⟩ [0, 2, 2, 4] [0, 1, 4]
        [0, 1, 0, 2] [0, 1, 0, 1]).dstIdFromEdgeId 2 = some gid ∧
      ([0, 1, 4] : List Nat).getD gid 0 ≤ 2 ∧
      2 < ([0, 1, 4] : List Nat).getD (gid + 1) 0 ∧
      ∀ j, ([0, 1, 4] : List Nat).getD j 0 ≤ 2 →
        2 < ([0, 1, 4] : List Nat).getD (j + 1) 0 → j = gid) :=
  edge_id_inversion (WBGraph.mk ⟨[], [], 3, 4⟩ [0, 2, 2, 4] [0, 1, 4]
      [0, 1, 0, 2] [0, 1, 0, 1]) 2 2
    (by simp [List.chain'_cons])
    rfl ⟨4, rfl, by omega⟩
    (by simp [List.chain'_cons])
    rfl ⟨4, rfl, by omega⟩

/-! ### C10: the constructor assertions pin the edge count -/

/-- Claim C10: `WeightedBitFieldBipartiteGraph::new` asserts that the
key→gram edge vector, the gram→key edge vector and the stored weights all
have the same length, so every constructed graph has `number_of_edges`
equal to the length of both edge vectors. -/
theorem wbgraph_new_edge_counts (w : Weights) (sOff dOff sd ds : List Nat)
    (g : WBGraph) (h : WBGraph.new w sOff dOff sd ds = some g) :
    g.numberOfEdges = g.srcsToDsts.length ∧
    g.numberOfEdges = g.dstsToSrcs.length := by
  unfold WBGraph.new at h
  split at h
  · rename_i hcond
    obtain ⟨h1, h2⟩ := hcond
    cases h
    refine ⟨?_, ?_⟩ <;> simp [WBGraph.numberOfEdges] <;> omega
  · cases h

/-- Witness for C10 at a two-edge graph. -/
theorem wbgraph_new_edge_counts_witness :
    (WBGraph.mk ⟨[], [], 1, 2⟩ [0, 2] [0, 1, 2] [0, 1] [0, 0]).numberOfEdges =
      ([0, 1] : List Nat).length ∧
    (WBGraph.mk ⟨[], [], 1, 2⟩ [0, 2] [0, 1, 2] [0, 1] [0, 0]).numberOfEdges =
      ([0, 0] : List Nat).length :=
  wbgraph_new_edge_counts ⟨[], [], 1, 2⟩ [0, 2] [0, 1, 2] [0, 1] [0, 0] _ (by decide)

end Ngrammatic
